import Mathlib

/-!
Shallow embedding of `robot_calibration`'s `ChainManager`
(`src/robot_calibration/src/util/chain_manager.cpp`).

Joint positions, velocities and durations are modelled as rationals; joint and
chain names as strings.  The joint-state store kept by `ChainManager`
(`state_` plus `state_is_valid_`) is modelled as three parallel lists together
with a `Bool` validity flag, exactly mirroring the `sensor_msgs::JointState`
layout the C++ code manipulates.
-/

namespace RobotCalibration

/-- Parallel name/position/velocity arrays, the layout of
`sensor_msgs::msg::JointState`.  Used both for the store (`state_`) and for
incoming messages. -/
structure JointState where
  name : List String
  position : List ℚ
  velocity : List ℚ
deriving DecidableEq, Repr

/-- Well-formedness of the store: the three parallel arrays have equal length
and no joint name occurs twice. -/
def wfState (s : JointState) : Prop :=
  s.position.length = s.name.length ∧ s.velocity.length = s.name.length ∧ s.name.Nodup

instance (s : JointState) : Decidable (wfState s) := by
  unfold wfState; infer_instance

/-- One iteration of the per-joint merge loop in `ChainManager::stateCallback`
(chain_manager.cpp lines 104-123): scan `state_.name` for the message's joint
name; on a hit overwrite position and velocity at that index, otherwise append
a new entry to all three arrays. -/
def updateJoint (s : JointState) (n : String) (p v : ℚ) : JointState :=
  if s.name.indexOf n < s.name.length then
    { name := s.name,
      position := s.position.set (s.name.indexOf n) p,
      velocity := s.velocity.set (s.name.indexOf n) v }
  else
    { name := s.name ++ [n],
      position := s.position ++ [p],
      velocity := s.velocity ++ [v] }

/-- Apply the merge loop of `stateCallback` to every `(name, position,
velocity)` triple of a message, in message order. -/
def applyEntries (s : JointState) (es : List (String × ℚ × ℚ)) : JointState :=
  es.foldl (fun t e => updateJoint t e.1 e.2.1 e.2.2) s

/-- The `(name, position, velocity)` triples of a message, in order.  For an
equal-length message this is exactly the index range the C++ loop walks. -/
def entries (msg : JointState) : List (String × ℚ × ℚ) :=
  msg.name.zip (msg.position.zip msg.velocity)

/-- `ChainManager::stateCallback` (chain_manager.cpp lines 88-125): reject the
whole message if the name/position or position/velocity arrays differ in
length; otherwise merge every entry into the store and set
`state_is_valid_ = true`. -/
def stateCallback (s : JointState) (valid : Bool) (msg : JointState) :
    JointState × Bool :=
  if msg.name.length ≠ msg.position.length then (s, valid)
  else if msg.position.length ≠ msg.velocity.length then (s, valid)
  else (applyEntries s (entries msg), true)

/-- `ChainManager::getState` (chain_manager.cpp lines 127-132): copy out the
store and report the validity flag. -/
def getState (s : JointState) (valid : Bool) : JointState × Bool :=
  (s, valid)

/-- The store before any message has arrived: empty arrays,
`state_is_valid_ = false` (constructor, chain_manager.cpp line 29). -/
def initialStore : JointState × Bool :=
  (⟨[], [], []⟩, false)

/-- First-match lookup of a joint in a state, the scan every consumer of the
store performs (e.g. the inner loop of `makePoint`, lines 140-147): the
position/velocity stored at the first index whose name matches, if any. -/
def lookupJoint (s : JointState) (n : String) : Option (ℚ × ℚ) :=
  if s.name.indexOf n < s.name.length then
    some (s.position.getD (s.name.indexOf n) 0, s.velocity.getD (s.name.indexOf n) 0)
  else none

/-- Value of the last message entry carrying a given joint name, if any. -/
def lastVal : List (String × ℚ × ℚ) → String → Option (ℚ × ℚ)
  | [], _ => none
  | e :: es, n =>
    match lastVal es n with
    | some x => some x
    | none => if e.1 = n then some e.2 else none

/-- A `trajectory_msgs::msg::JointTrajectoryPoint`: parallel position,
velocity and acceleration sequences plus a `time_from_start` stamp. -/
structure TrajectoryPoint where
  positions : List ℚ
  velocities : List ℚ
  accelerations : List ℚ
  time_from_start : ℚ
deriving DecidableEq, Repr

/-- The inner scan of `ChainManager::makePoint` (lines 140-147): position of
the first state entry whose name matches, if any. -/
def findPos (state : JointState) (n : String) : Option ℚ :=
  if state.name.indexOf n < state.name.length then
    some (state.position.getD (state.name.indexOf n) 0)
  else none

/-- Body of the loop of `ChainManager::makePoint` (lines 138-155): for each
requested joint, push its looked-up position (skipping the push when the scan
finds nothing), always push a zero velocity and zero acceleration, then check
the parallel sequences; a length mismatch is the missing-joint error path
(`exit(-1)` in the source), modelled as `none`. -/
def makePointLoop (state : JointState) : List String → TrajectoryPoint →
    Option TrajectoryPoint
  | [], p => some p
  | n :: rest, p =>
    let p1 : TrajectoryPoint :=
      match findPos state n with
      | some q => { p with positions := p.positions ++ [q] }
      | none => p
    let p2 : TrajectoryPoint :=
      { p1 with velocities := p1.velocities ++ [0],
                accelerations := p1.accelerations ++ [0] }
    if p2.velocities.length ≠ p2.positions.length then none
    else makePointLoop state rest p2

/-- `ChainManager::makePoint` (lines 134-157), starting from an empty point. -/
def makePoint (state : JointState) (joints : List String) :
    Option TrajectoryPoint :=
  makePointLoop state joints ⟨[], [], [], 0⟩

/-- Static data of one `ChainController`: chain name, ordered joint list and
planning-group id (fields read throughout chain_manager.cpp). -/
structure ChainController where
  chain_name : String
  joint_names : List String
  chain_planning_group : String
deriving DecidableEq, Repr

/-- Modelled from the spec: `ChainController::shouldPlan` is declared in the
header `chain_manager.hpp`, which is not among the available sources.  §4.2 of
the specification states that a non-empty planning-group id means the chain
requires planning. -/
def shouldPlan (c : ChainController) : Bool :=
  c.chain_planning_group ≠ ""

/-- Membership test of the double loop at chain_manager.cpp lines 276-286:
does the joint name occur in any registered chain's joint list? -/
def jointInChains (ctrl : List ChainController) (n : String) : Bool :=
  ctrl.any (fun c => c.joint_names.contains n)

/-- Settling threshold of `ChainManager::waitToSettle` (line 273):
0.001 rad/s. -/
def settleThreshold : ℚ := 1 / 1000

/-- The per-snapshot scan of `waitToSettle` (lines 270-293) over the
`(name, velocity)` pairs of the snapshot: joints below the velocity threshold
are skipped; a joint at or above it that belongs to a registered chain makes
the iteration unsettled and stops the scan. -/
def scanSettled (ctrl : List ChainController) : List (String × ℚ) → Bool
  | [] => true
  | (n, v) :: rest =>
    if |v| < settleThreshold then scanSettled ctrl rest
    else if jointInChains ctrl n then false
    else scanSettled ctrl rest

/-- Settledness of one snapshot, pairing each state name with the velocity the
C++ loop reads at the same index. -/
def checkSettled (ctrl : List ChainController) (s : JointState) : Bool :=
  scanSettled ctrl (s.name.zip s.velocity)

/-- `rclcpp::spin_some` at line 317, which services the pending joint-state
messages: each is delivered through `stateCallback`. -/
def spinSome (sv : JointState × Bool) (ms : List JointState) : JointState × Bool :=
  ms.foldl (fun t m => stateCallback t.1 t.2 m) sv

/-- The polling loop of `ChainManager::waitToSettle` (lines 261-318), with an
explicit fuel bound (`none` = still looping when fuel runs out).  `msgs t` are
the messages `spin_some` delivers on iteration `t`; `times t` is the elapsed
time `(node->now() - start).seconds()` observed by iteration `t`'s timeout
check.  Each iteration: if the snapshot is valid and settled, return success;
else if the timeout is enabled and exceeded, return failure; else spin and
repeat. -/
def settleLoop (ctrl : List ChainController) (timeout : ℚ)
    (msgs : Nat → List JointState) (times : Nat → ℚ) :
    Nat → Nat → JointState × Bool → Option (Bool × (JointState × Bool))
  | 0, t, sv =>
    if sv.2 = true ∧ checkSettled ctrl sv.1 = true then some (true, sv)
    else if 0 < timeout ∧ timeout < times t then some (false, sv)
    else none
  | fuel + 1, t, sv =>
    if sv.2 = true ∧ checkSettled ctrl sv.1 = true then some (true, sv)
    else if 0 < timeout ∧ timeout < times t then some (false, sv)
    else settleLoop ctrl timeout msgs times fuel (t + 1) (spinSome sv (msgs t))

/-- `ChainManager::waitToSettle` (lines 237-321): with no registered chains
return success at once; otherwise invalidate the store's validity flag and
enter the polling loop. -/
def waitToSettle (ctrl : List ChainController) (timeout : ℚ)
    (msgs : Nat → List JointState) (times : Nat → ℚ)
    (sv : JointState × Bool) (fuel : Nat) : Option (Bool × (JointState × Bool)) :=
  if ctrl.isEmpty then some (true, sv)
  else settleLoop ctrl timeout msgs times fuel 0 (sv.1, false)

/-- A `trajectory_msgs::msg::JointTrajectory`: joint names plus waypoints. -/
structure JointTrajectory where
  joint_names : List String
  points : List TrajectoryPoint
deriving DecidableEq, Repr

/-- A trajectory goal as sent at line 224: the trajectory plus the fixed
1-second `goal_time_tolerance` set at line 221. -/
structure TrajGoal where
  trajectory : JointTrajectory
  goal_time_tolerance : ℚ
deriving DecidableEq, Repr

/-- Result of one MoveGroup planning request: the `error_code.val` and the
planned trajectory (`result->planned_trajectory.joint_trajectory`). -/
structure MoveGroupResult where
  error_code : Int
  planned_trajectory : JointTrajectory
deriving DecidableEq, Repr

/-- `moveit_msgs::msg::MoveItErrorCodes::SUCCESS`. -/
def moveItSuccess : Int := 1

/-- Time stamp of `points[points.size()-1]` of a planned trajectory
(line 211). -/
def lastWaypointTime (traj : JointTrajectory) : ℚ :=
  (traj.points.map TrajectoryPoint.time_from_start).getLastD 0

/-- Outcome of the goal-construction/dispatch loop of `moveToState`
(lines 164-225): `exited` models the `exit(-1)` inside `makePoint`;
`planFailed` the early `return false` at line 207 (carrying the goals already
sent); `ok` carries the final `max_duration` and all sent goals. -/
inductive SendOutcome where
  | exited : SendOutcome
  | planFailed : List (Nat × TrajGoal) → SendOutcome
  | ok : ℚ → List (Nat × TrajGoal) → SendOutcome
deriving DecidableEq, Repr

/-- The per-chain loop of `ChainManager::moveToState` (lines 164-225) over the
remaining `(index, controller)` pairs.  For each chain: build its point (a
missing joint exits the process); if the chain plans, consult the planner
(`plans i`) — a non-success error code returns failure immediately, a success
installs the planned trajectory as the goal and folds its last waypoint time
into `max_duration`; otherwise the single point stamped at the configured
duration is the goal.  Every goal is then sent (appended to `sent`). -/
def sendLoop (dur : ℚ) (plans : Nat → MoveGroupResult) (target : JointState) :
    List (Nat × ChainController) → ℚ → List (Nat × TrajGoal) → SendOutcome
  | [], maxDur, sent => .ok maxDur sent
  | (i, c) :: rest, maxDur, sent =>
    match makePoint target c.joint_names with
    | none => .exited
    | some p =>
      if shouldPlan c then
        if (plans i).error_code ≠ moveItSuccess then .planFailed sent
        else
          sendLoop dur plans target rest
            (max maxDur (lastWaypointTime (plans i).planned_trajectory))
            (sent ++ [(i, ⟨(plans i).planned_trajectory, 1⟩)])
      else
        sendLoop dur plans target rest maxDur
          (sent ++ [(i, ⟨⟨c.joint_names, [{ p with time_from_start := dur }]⟩, 1⟩)])

/-- Overall outcome of `moveToState`: `exited` for the `exit(-1)` path,
otherwise the returned boolean, the goals sent, and the result-wait log —
one `(chain index, result observed, timeout)` entry per `waitForResult` call
of the loop at lines 228-232. -/
inductive MoveOutcome where
  | exited : MoveOutcome
  | returned : Bool → List (Nat × TrajGoal) → List (Nat × Bool × ℚ) → MoveOutcome
deriving DecidableEq, Repr

/-- The boolean `moveToState` returns, when it returns. -/
def MoveOutcome.returnValue : MoveOutcome → Option Bool
  | .exited => none
  | .returned b _ _ => some b

/-- `ChainManager::moveToState` (lines 159-235).  `max_duration` starts at the
configured duration (line 161); after the dispatch loop every chain's result
is awaited with timeout `max_duration * 1.5` (line 230) and the per-chain
results (`results i`) are discarded; the call then returns `true`.  A planning
failure returns `false` before any waiting. -/
def moveToState (ctrl : List ChainController) (dur : ℚ)
    (plans : Nat → MoveGroupResult) (results : Nat → Bool)
    (target : JointState) : MoveOutcome :=
  match sendLoop dur plans target ctrl.enum dur [] with
  | .exited => .exited
  | .planFailed sent => .returned false sent []
  | .ok maxDur sent =>
      .returned true sent
        (ctrl.enum.map (fun ic => (ic.1, results ic.1, maxDur * (3 / 2))))

/-- Running maximum the dispatch loop computes (lines 161, 211-212): starting
from a floor, fold in the last waypoint time of every chain that plans. -/
def chainMax (plans : Nat → MoveGroupResult) :
    List (Nat × ChainController) → ℚ → ℚ
  | [], m => m
  | ic :: rest, m =>
    if shouldPlan ic.2 then
      chainMax plans rest (max m (lastWaypointTime (plans ic.1).planned_trajectory))
    else chainMax plans rest m

/-- `ChainManager::getChainJointNames` (lines 333-343): joint list of the
first controller whose name matches, else the empty list. -/
def getChainJointNames : List ChainController → String → List String
  | [], _ => []
  | c :: rest, n =>
    if c.chain_name = n then c.joint_names else getChainJointNames rest n

/-- `ChainManager::getPlanningGroupName` (lines 345-355): planning group of
the first controller whose name matches, else the empty string. -/
def getPlanningGroupName : List ChainController → String → String
  | [], _ => ""
  | c :: rest, n =>
    if c.chain_name = n then c.chain_planning_group else getPlanningGroupName rest n

/-! ### Lemmas about the joint-state store -/

theorem not_mem_of_indexOf_not_lt {l : List String} {n : String}
    (h : ¬ l.indexOf n < l.length) : n ∉ l :=
  fun hmem => h (List.indexOf_lt_length.mpr hmem)

theorem wfState_updateJoint {s : JointState} (h : wfState s) (n : String)
    (p v : ℚ) : wfState (updateJoint s n p v) := by
  obtain ⟨hp, hv, hd⟩ := h
  unfold updateJoint
  split
  · exact ⟨by simpa using hp, by simpa using hv, hd⟩
  · rename_i hlt
    have hn : n ∉ s.name := not_mem_of_indexOf_not_lt hlt
    refine ⟨by simp [hp], by simp [hv], ?_⟩
    simpa [List.concat_eq_append] using hd.concat hn

theorem wfState_applyEntries {s : JointState} (h : wfState s)
    (es : List (String × ℚ × ℚ)) : wfState (applyEntries s es) := by
  induction es generalizing s with
  | nil => exact h
  | cons e es ih => exact ih (wfState_updateJoint h e.1 e.2.1 e.2.2)

theorem wfState_stateCallback {s : JointState} (h : wfState s) (valid : Bool)
    (msg : JointState) : wfState (stateCallback s valid msg).1 := by
  unfold stateCallback
  split
  · exact h
  · split
    · exact h
    · exact wfState_applyEntries h _

theorem lookupJoint_updateJoint_self {s : JointState} (h : wfState s)
    (n : String) (p v : ℚ) :
    lookupJoint (updateJoint s n p v) n = some (p, v) := by
  obtain ⟨hp, hv, -⟩ := h
  unfold updateJoint
  by_cases hlt : s.name.indexOf n < s.name.length
  · rw [if_pos hlt]
    unfold lookupJoint
    simp only
    rw [if_pos hlt]
    have hjp : s.name.indexOf n < (s.position.set (s.name.indexOf n) p).length := by
      rw [List.length_set, hp]; exact hlt
    have hjv : s.name.indexOf n < (s.velocity.set (s.name.indexOf n) v).length := by
      rw [List.length_set, hv]; exact hlt
    rw [List.getD_eq_getElem _ _ hjp, List.getD_eq_getElem _ _ hjv,
      List.getElem_set_eq hjp, List.getElem_set_eq hjv]
  · rw [if_neg hlt]
    have hn : n ∉ s.name := not_mem_of_indexOf_not_lt hlt
    unfold lookupJoint
    simp only
    have hidx : (s.name ++ [n]).indexOf n = s.name.length := by
      rw [List.indexOf_append_of_not_mem hn, List.indexOf_cons_self]
      omega
    have hlen : (s.name ++ [n]).length = s.name.length + 1 := by simp
    rw [hidx]
    rw [if_pos (by rw [hlen]; omega)]
    have hbp : s.position.length ≤ s.name.length := le_of_eq hp
    have hbv : s.velocity.length ≤ s.name.length := le_of_eq hv
    have h1p : s.name.length < (s.position ++ [p]).length := by simp [hp]
    have h1v : s.name.length < (s.velocity ++ [v]).length := by simp [hv]
    rw [List.getD_eq_getElem _ _ h1p, List.getD_eq_getElem _ _ h1v,
      List.getElem_append_right hbp, List.getElem_append_right hbv]
    simp [hp, hv]

theorem lookupJoint_updateJoint_ne {s : JointState} (h : wfState s)
    {n m : String} (hne : m ≠ n) (p v : ℚ) :
    lookupJoint (updateJoint s n p v) m = lookupJoint s m := by
  obtain ⟨hp, hv, -⟩ := h
  unfold updateJoint
  by_cases hlt : s.name.indexOf n < s.name.length
  · rw [if_pos hlt]
    unfold lookupJoint
    simp only
    by_cases hm : s.name.indexOf m < s.name.length
    · rw [if_pos hm, if_pos hm]
      have hij : s.name.indexOf n ≠ s.name.indexOf m := fun he =>
        hne ((List.indexOf_inj (List.indexOf_lt_length.mp hlt)
          (List.indexOf_lt_length.mp hm)).mp he).symm
      have hmp : s.name.indexOf m < (s.position.set (s.name.indexOf n) p).length := by
        rw [List.length_set, hp]; exact hm
      have hmv : s.name.indexOf m < (s.velocity.set (s.name.indexOf n) v).length := by
        rw [List.length_set, hv]; exact hm
      rw [List.getD_eq_getElem _ _ hmp, List.getD_eq_getElem _ _ hmv,
        List.getElem_set_ne hij, List.getElem_set_ne hij,
        ← List.getD_eq_getElem s.position 0 (by rw [hp]; exact hm),
        ← List.getD_eq_getElem s.velocity 0 (by rw [hv]; exact hm)]
    · rw [if_neg hm, if_neg hm]
  · rw [if_neg hlt]
    have hn : n ∉ s.name := not_mem_of_indexOf_not_lt hlt
    unfold lookupJoint
    simp only
    by_cases hm : m ∈ s.name
    · have hmi : s.name.indexOf m < s.name.length := List.indexOf_lt_length.mpr hm
      have hidx : (s.name ++ [n]).indexOf m = s.name.indexOf m :=
        List.indexOf_append_of_mem hm
      rw [hidx, if_pos (by simp; omega), if_pos hmi]
      have hmp : s.name.indexOf m < s.position.length := by rw [hp]; exact hmi
      have hmv : s.name.indexOf m < s.velocity.length := by rw [hv]; exact hmi
      rw [List.getD_eq_getElem _ _ (by simp [hp]; omega : s.name.indexOf m < (s.position ++ [p]).length),
        List.getD_eq_getElem _ _ (by simp [hv]; omega : s.name.indexOf m < (s.velocity ++ [v]).length),
        List.getElem_append_left hmp, List.getElem_append_left hmv,
        ← List.getD_eq_getElem s.position 0 hmp, ← List.getD_eq_getElem s.velocity 0 hmv]
    · have hm2 : m ∉ s.name ++ [n] := by
        simp only [List.mem_append, List.mem_singleton]
        rintro (hc | hc)
        · exact hm hc
        · exact hne hc
      rw [if_neg (by rw [List.indexOf_of_not_mem hm2]; omega),
        if_neg (by rw [List.indexOf_of_not_mem hm]; omega)]

theorem lookupJoint_applyEntries {s : JointState} (h : wfState s)
    (es : List (String × ℚ × ℚ)) (n : String) :
    lookupJoint (applyEntries s es) n =
      match lastVal es n with
      | some x => some x
      | none => lookupJoint s n := by
  induction es generalizing s with
  | nil => rfl
  | cons e es ih =>
    have hwf' := wfState_updateJoint h e.1 e.2.1 e.2.2
    have step : applyEntries s (e :: es) =
        applyEntries (updateJoint s e.1 e.2.1 e.2.2) es := rfl
    rw [step, ih hwf']
    cases hlv : lastVal es n with
    | some x => simp [lastVal, hlv]
    | none =>
      simp only [lastVal, hlv]
      by_cases he : e.1 = n
      · subst he
        rw [if_pos rfl, lookupJoint_updateJoint_self h]
      · rw [if_neg he,
          lookupJoint_updateJoint_ne h (fun hc => he hc.symm) e.2.1 e.2.2]

theorem mem_name_updateJoint (s : JointState) (n m : String) (p v : ℚ) :
    m ∈ (updateJoint s n p v).name ↔ m ∈ s.name ∨ m = n := by
  unfold updateJoint
  split
  · rename_i hlt
    have hn : n ∈ s.name := List.indexOf_lt_length.mp hlt
    simp only
    constructor
    · exact Or.inl
    · rintro (hm | rfl)
      · exact hm
      · exact hn
  · simp

theorem mem_name_applyEntries (s : JointState) (es : List (String × ℚ × ℚ))
    (m : String) :
    m ∈ (applyEntries s es).name ↔ m ∈ s.name ∨ ∃ e ∈ es, e.1 = m := by
  induction es generalizing s with
  | nil => simp [applyEntries]
  | cons e es ih =>
    have step : applyEntries s (e :: es) =
        applyEntries (updateJoint s e.1 e.2.1 e.2.2) es := rfl
    rw [step, ih, mem_name_updateJoint]
    constructor
    · rintro ((hm | rfl) | ⟨e', he', rfl⟩)
      · exact Or.inl hm
      · exact Or.inr ⟨e, by simp⟩
      · exact Or.inr ⟨e', by simp [he']⟩
    · rintro (hm | ⟨e', he', rfl⟩)
      · exact Or.inl (Or.inl hm)
      · rcases List.mem_cons.mp he' with rfl | he''
        · exact Or.inl (Or.inr rfl)
        · exact Or.inr ⟨e', he'', rfl⟩

theorem name_applyEntries_of_mem {s : JointState} {es : List (String × ℚ × ℚ)}
    (h : ∀ e ∈ es, e.1 ∈ s.name) : (applyEntries s es).name = s.name := by
  induction es generalizing s with
  | nil => rfl
  | cons e es ih =>
    have he : e.1 ∈ s.name := h e (by simp)
    have hname : (updateJoint s e.1 e.2.1 e.2.2).name = s.name := by
      unfold updateJoint
      rw [if_pos (List.indexOf_lt_length.mpr he)]
    have step : applyEntries s (e :: es) =
        applyEntries (updateJoint s e.1 e.2.1 e.2.2) es := rfl
    rw [step, ih (by rw [hname]; exact fun e' he' => h e' (by simp [he'])), hname]

theorem jointState_ext {t t' : JointState} (ht : wfState t) (ht' : wfState t')
    (hname : t.name = t'.name)
    (hlook : ∀ n, lookupJoint t n = lookupJoint t' n) : t = t' := by
  obtain ⟨na, po, ve⟩ := t
  obtain ⟨na', po', ve'⟩ := t'
  obtain ⟨hp, hv, hd⟩ := ht
  obtain ⟨hp', hv', -⟩ := ht'
  simp only at hname hp hv hp' hv'
  subst hname
  have hpo : po = po' := by
    refine List.ext_getElem (by rw [hp, hp']) ?_
    intro i h₁ h₂
    have hi : i < na.length := by rw [← hp]; exact h₁
    have hidx : na.indexOf na[i] = i := List.indexOf_getElem hd i hi
    have := hlook na[i]
    unfold lookupJoint at this
    simp only [hidx] at this
    rw [if_pos hi, if_pos hi] at this
    have hthis := (Option.some.injEq _ _).mp this
    have h1 : po.getD i 0 = po'.getD i 0 := congrArg Prod.fst hthis
    rw [List.getD_eq_getElem _ _ h₁, List.getD_eq_getElem _ _ h₂] at h1
    exact h1
  have hve : ve = ve' := by
    refine List.ext_getElem (by rw [hv, hv']) ?_
    intro i h₁ h₂
    have hi : i < na.length := by rw [← hv]; exact h₁
    have hidx : na.indexOf na[i] = i := List.indexOf_getElem hd i hi
    have := hlook na[i]
    unfold lookupJoint at this
    simp only [hidx] at this
    rw [if_pos hi, if_pos hi] at this
    have hthis := (Option.some.injEq _ _).mp this
    have h1 : ve.getD i 0 = ve'.getD i 0 := congrArg Prod.snd hthis
    rw [List.getD_eq_getElem _ _ h₁, List.getD_eq_getElem _ _ h₂] at h1
    exact h1
  rw [hpo, hve]

/-! ### Claims C4, C5, C9: the joint-state store -/

/-- C4: a state-stream update whose name, position and velocity arrays are not
all of equal length is rejected in its entirety — the store's state and its
validity flag are exactly as they were before the call and no partial merge
occurs. -/
theorem stateCallback_malformed_rejected (s : JointState) (valid : Bool)
    (msg : JointState)
    (h : msg.name.length ≠ msg.position.length
      ∨ msg.position.length ≠ msg.velocity.length) :
    stateCallback s valid msg = (s, valid) := by
  unfold stateCallback
  rcases h with h | h
  · rw [if_pos h]
  · by_cases h1 : msg.name.length ≠ msg.position.length
    · rw [if_pos h1]
    · rw [if_neg h1, if_pos h]

/-- Witness for C4: a message with 2 names, 1 position and 2 velocities
leaves a concrete store untouched. -/
theorem stateCallback_malformed_rejected_witness :
    stateCallback ⟨["j1"], [2], [0]⟩ true ⟨["a", "b"], [1], [1, 1]⟩
      = (⟨["j1"], [2], [0]⟩, true) :=
  stateCallback_malformed_rejected _ _ _ (Or.inl (by decide))

/-- C5: for every valid equal-length update batch, each named joint's
position and velocity in a subsequent snapshot equal the most recently
supplied values for that name, an unseen name is appended while a seen one is
overwritten (the name set becomes the union), the validity flag becomes true,
and applying the same update twice yields the same snapshot as applying it
once. -/
theorem stateCallback_latest_values (s : JointState) (valid : Bool)
    (msg : JointState) (hwf : wfState s)
    (h1 : msg.name.length = msg.position.length)
    (h2 : msg.position.length = msg.velocity.length) :
    (stateCallback s valid msg).2 = true
    ∧ (∀ n, lookupJoint (stateCallback s valid msg).1 n =
        match lastVal (entries msg) n with
        | some x => some x
        | none => lookupJoint s n)
    ∧ (∀ n, n ∈ (stateCallback s valid msg).1.name ↔ n ∈ s.name ∨ n ∈ msg.name)
    ∧ stateCallback (stateCallback s valid msg).1 (stateCallback s valid msg).2 msg
        = stateCallback s valid msg
    ∧ getState (stateCallback s valid msg).1 (stateCallback s valid msg).2
        = stateCallback s valid msg := by
  have hcb : stateCallback s valid msg = (applyEntries s (entries msg), true) := by
    unfold stateCallback
    rw [if_neg (by omega), if_neg (by omega)]
  have hnames : ∀ n, (∃ e ∈ entries msg, e.1 = n) ↔ n ∈ msg.name := by
    intro n
    have hmap : (entries msg).map Prod.fst = msg.name := by
      unfold entries
      apply List.map_fst_zip
      rw [List.length_zip]
      omega
    constructor
    · rintro ⟨e, he, rfl⟩
      rw [← hmap]
      exact List.mem_map_of_mem _ he
    · intro hn
      rw [← hmap] at hn
      rcases List.mem_map.mp hn with ⟨e, he, heq⟩
      exact ⟨e, he, heq⟩
  have hwf1 : wfState (applyEntries s (entries msg)) := wfState_applyEntries hwf _
  refine ⟨by rw [hcb], ?_, ?_, ?_, by rw [hcb]; rfl⟩
  · intro n
    rw [hcb]
    exact lookupJoint_applyEntries hwf _ n
  · intro n
    rw [hcb]
    simp only
    rw [mem_name_applyEntries, hnames n]
  · rw [hcb]
    have hpres : ∀ e ∈ entries msg, e.1 ∈ (applyEntries s (entries msg)).name := by
      intro e he
      rw [mem_name_applyEntries]
      exact Or.inr ⟨e, he, rfl⟩
    have hfix : applyEntries (applyEntries s (entries msg)) (entries msg)
        = applyEntries s (entries msg) := by
      apply jointState_ext (wfState_applyEntries hwf1 _) hwf1
      · exact name_applyEntries_of_mem hpres
      · intro n
        rw [lookupJoint_applyEntries hwf1 (entries msg) n]
        cases hlv : lastVal (entries msg) n with
        | some x =>
          rw [lookupJoint_applyEntries hwf (entries msg) n, hlv]
        | none => rfl
    unfold stateCallback
    rw [if_neg (by omega), if_neg (by omega), hfix]

/-- Witness for C5: updating a one-joint store with a two-joint batch reports
a valid store. -/
theorem stateCallback_latest_values_witness :
    (stateCallback ⟨["a"], [1], [0]⟩ false ⟨["a", "b"], [2, 3], [0, 0]⟩).2 = true :=
  (stateCallback_latest_values _ _ _ (by decide) (by decide) (by decide)).1

/-- C9: the store invariant — equal-length parallel arrays and no duplicate
joint name — holds of the initial store, is preserved by every `stateCallback`
(and so holds after any sequence of messages applied to the initially empty
store), and `getState` does not modify the store. -/
theorem store_invariant_spec :
    (∀ msgs : List JointState,
      wfState ((msgs.foldl (fun sv m => stateCallback sv.1 sv.2 m) initialStore).1))
    ∧ (∀ (s : JointState) (valid : Bool) (msg : JointState),
        wfState s → wfState (stateCallback s valid msg).1)
    ∧ (∀ (s : JointState) (valid : Bool), (getState s valid).1 = s) := by
  refine ⟨?_, fun s valid msg h => wfState_stateCallback h valid msg,
    fun s valid => rfl⟩
  intro msgs
  have hfold : ∀ (sv : JointState × Bool), wfState sv.1 →
      wfState ((msgs.foldl (fun sv m => stateCallback sv.1 sv.2 m) sv).1) := by
    induction msgs with
    | nil => exact fun sv h => h
    | cons m ms ih => exact fun sv h => ih _ (wfState_stateCallback h sv.2 m)
  exact hfold initialStore ⟨rfl, rfl, List.nodup_nil⟩

/-- Witness for C9: the invariant-preservation part applied to a concrete
well-formed store and a concrete (empty) message. -/
theorem store_invariant_spec_witness :
    wfState (stateCallback ⟨["a"], [1], [0]⟩ true ⟨[], [], []⟩).1 :=
  store_invariant_spec.2.1 _ _ _ (by decide)

/-! ### Lemmas about makePoint -/

theorem findPos_eq_none {state : JointState} {n : String} :
    findPos state n = none ↔ n ∉ state.name := by
  unfold findPos
  split
  · rename_i h
    simp [List.indexOf_lt_length.mp h]
  · rename_i h
    simp [not_mem_of_indexOf_not_lt h]

theorem findPos_isSome {state : JointState} {n : String} (h : n ∈ state.name) :
    ∃ q, findPos state n = some q := by
  unfold findPos
  rw [if_pos (List.indexOf_lt_length.mpr h)]
  exact ⟨_, rfl⟩

theorem makePointLoop_missing (state : JointState) :
    ∀ (joints : List String) (p : TrajectoryPoint),
      p.velocities.length = p.positions.length →
      (∃ j ∈ joints, j ∉ state.name) →
      makePointLoop state joints p = none := by
  intro joints
  induction joints with
  | nil =>
    intro p _ h
    simp at h
  | cons n rest ih =>
    intro p hbal hex
    by_cases hn : n ∈ state.name
    · obtain ⟨q, hq⟩ := findPos_isSome hn
      have hex' : ∃ j ∈ rest, j ∉ state.name := by
        rcases hex with ⟨j, hj, hnot⟩
        rcases List.mem_cons.mp hj with rfl | hj'
        · exact absurd hn hnot
        · exact ⟨j, hj', hnot⟩
      simp only [makePointLoop, hq]
      rw [if_neg (by simp [hbal])]
      exact ih _ (by simp [hbal]) hex'
    · have hq : findPos state n = none := findPos_eq_none.mpr hn
      simp only [makePointLoop, hq]
      rw [if_pos (by simp [hbal])]

theorem makePointLoop_complete (state : JointState) :
    ∀ (joints : List String) (p : TrajectoryPoint),
      p.velocities.length = p.positions.length →
      (∀ j ∈ joints, j ∈ state.name) →
      makePointLoop state joints p =
        some ⟨p.positions ++ joints.map (fun j => (findPos state j).getD 0),
              p.velocities ++ List.replicate joints.length 0,
              p.accelerations ++ List.replicate joints.length 0,
              p.time_from_start⟩ := by
  intro joints
  induction joints with
  | nil =>
    intro p _ _
    simp [makePointLoop]
  | cons n rest ih =>
    intro p hbal hall
    have hn : n ∈ state.name := hall n (by simp)
    obtain ⟨q, hq⟩ := findPos_isSome hn
    simp only [makePointLoop, hq]
    rw [if_neg (by simp [hbal])]
    rw [ih _ (by simp [hbal]) (fun j hj => hall j (by simp [hj]))]
    simp [hq, List.replicate_succ, List.append_assoc]

theorem makePointLoop_append (state : JointState) :
    ∀ (l₁ l₂ : List String) (p : TrajectoryPoint),
      makePointLoop state (l₁ ++ l₂) p =
        match makePointLoop state l₁ p with
        | none => none
        | some p' => makePointLoop state l₂ p' := by
  intro l₁
  induction l₁ with
  | nil =>
    intro l₂ p
    simp [makePointLoop]
  | cons n rest ih =>
    intro l₂ p
    simp only [List.cons_append, makePointLoop]
    cases hq : findPos state n with
    | some q =>
      dsimp only
      by_cases hc : (p.velocities ++ [0]).length ≠ (p.positions ++ [q]).length
      · rw [if_pos hc, if_pos hc]
      · rw [if_neg hc, if_neg hc, List.append_eq, ih]
    | none =>
      dsimp only
      by_cases hc : (p.velocities ++ [0]).length ≠ p.positions.length
      · rw [if_pos hc, if_pos hc]
      · rw [if_neg hc, if_neg hc, List.append_eq, ih]

/-! ### Claims C6, C7: makePoint -/

/-- C6: a joint name with no entry in the given state makes `makePoint` fail
(the source's `exit(-1)` path, modelled as `none`), never a silently shorter
point; the failure is detected at the first missing joint — the result does
not depend on anything after it in the joint list. -/
theorem makePoint_missing_joint (state : JointState) :
    (∀ joints : List String, (∃ j ∈ joints, j ∉ state.name) →
      makePoint state joints = none)
    ∧ (∀ (pre : List String) (j : String) (post post' : List String),
        (∀ i ∈ pre, i ∈ state.name) → j ∉ state.name →
        makePoint state (pre ++ j :: post) = makePoint state (pre ++ j :: post')) := by
  constructor
  · intro joints hex
    exact makePointLoop_missing state joints _ rfl hex
  · intro pre j post post' hpre hj
    unfold makePoint
    rw [makePointLoop_append, makePointLoop_append,
      makePointLoop_complete state pre _ rfl hpre]
    have hmiss : ∀ post'' : List String,
        makePointLoop state (j :: post'')
          ⟨[] ++ pre.map (fun i => (findPos state i).getD 0),
           [] ++ List.replicate pre.length 0,
           [] ++ List.replicate pre.length 0, 0⟩ = none := by
      intro post''
      exact makePointLoop_missing state _ _ (by simp) ⟨j, by simp, hj⟩
    simp only [hmiss]

/-- Witness for C6: requesting joints `["a", "b"]` from a state that only
knows `"a"` fails. -/
theorem makePoint_missing_joint_witness :
    makePoint ⟨["a"], [1], [0]⟩ ["a", "b"] = none :=
  (makePoint_missing_joint _).1 ["a", "b"] ⟨"b", by decide, by decide⟩

/-- C7: when every requested joint has an entry in the state, `makePoint`
returns a point whose three sequences all have the joint list's length, whose
positions are the state's values in the joint list's order, and whose
velocities and accelerations are all zero. -/
theorem makePoint_complete_spec (state : JointState) (joints : List String)
    (h : ∀ j ∈ joints, j ∈ state.name) :
    ∃ p, makePoint state joints = some p
      ∧ p.positions = joints.map (fun j => (findPos state j).getD 0)
      ∧ p.velocities = List.replicate joints.length 0
      ∧ p.accelerations = List.replicate joints.length 0
      ∧ p.positions.length = joints.length
      ∧ p.velocities.length = joints.length
      ∧ p.accelerations.length = joints.length := by
  refine ⟨_, makePointLoop_complete state joints ⟨[], [], [], 0⟩ rfl h,
    by simp, by simp, by simp, by simp, by simp, by simp⟩

/-- Witness for C7: a fully covered joint list on a concrete state. -/
theorem makePoint_complete_spec_witness :
    ∃ p, makePoint ⟨["a", "b"], [1, 2], [0, 0]⟩ ["b"] = some p
      ∧ p.positions = ["b"].map (fun j => (findPos ⟨["a", "b"], [1, 2], [0, 0]⟩ j).getD 0)
      ∧ p.velocities = List.replicate (["b"] : List String).length 0
      ∧ p.accelerations = List.replicate (["b"] : List String).length 0
      ∧ p.positions.length = (["b"] : List String).length
      ∧ p.velocities.length = (["b"] : List String).length
      ∧ p.accelerations.length = (["b"] : List String).length :=
  makePoint_complete_spec _ _ (by decide)

/-! ### Lemmas about the settle monitor -/

theorem scanSettled_of_slow (ctrl : List ChainController) :
    ∀ l : List (String × ℚ),
      (∀ pr ∈ l, jointInChains ctrl pr.1 = true → |pr.2| < settleThreshold) →
      scanSettled ctrl l = true := by
  intro l
  induction l with
  | nil => intro _; rfl
  | cons pr rest ih =>
    intro h
    obtain ⟨n, v⟩ := pr
    simp only [scanSettled]
    by_cases hv : |v| < settleThreshold
    · rw [if_pos hv]
      exact ih (fun x hx => h x (by simp [hx]))
    · have hcj : ¬ jointInChains ctrl n = true := fun hc =>
        hv (h (n, v) (by simp) hc)
      rw [if_neg hv, if_neg hcj]
      exact ih (fun x hx => h x (by simp [hx]))

theorem scanSettled_first_unsettled (ctrl : List ChainController) :
    ∀ (l₁ : List (String × ℚ)) (n : String) (v : ℚ) (l₂ : List (String × ℚ)),
      (∀ pr ∈ l₁, jointInChains ctrl pr.1 = true → |pr.2| < settleThreshold) →
      settleThreshold ≤ |v| → jointInChains ctrl n = true →
      scanSettled ctrl (l₁ ++ (n, v) :: l₂) = false := by
  intro l₁
  induction l₁ with
  | nil =>
    intro n v l₂ _ hv hn
    simp only [List.nil_append, scanSettled]
    rw [if_neg (not_lt.mpr hv), if_pos hn]
  | cons pr rest ih =>
    intro n v l₂ h hv hn
    obtain ⟨m, w⟩ := pr
    simp only [List.cons_append, scanSettled]
    by_cases hw : |w| < settleThreshold
    · rw [if_pos hw]
      exact ih n v l₂ (fun x hx => h x (by simp [hx])) hv hn
    · have hcj : ¬ jointInChains ctrl m = true := fun hc =>
        hw (h (m, w) (by simp) hc)
      rw [if_neg hw, if_neg hcj]
      exact ih n v l₂ (fun x hx => h x (by simp [hx])) hv hn

theorem settleLoop_of_settled (ctrl : List ChainController) (timeout : ℚ)
    (msgs : Nat → List JointState) (times : Nat → ℚ) (fuel t : Nat)
    (sv : JointState × Bool) (hv : sv.2 = true)
    (hs : checkSettled ctrl sv.1 = true) :
    settleLoop ctrl timeout msgs times fuel t sv = some (true, sv) := by
  cases fuel <;> simp [settleLoop, hv, hs]

/-! ### Claims C3, C8: waitToSettle -/

/-- C3: when the store snapshot is valid and every snapshot joint that belongs
to some registered chain's joint list has velocity magnitude strictly below
the 0.001 rad/s threshold, the polling iteration succeeds at once — for every
clock, timeout, message stream and fuel — and a joint at or above the
threshold that belongs to a registered chain makes the scan return unsettled,
stopping at the first such joint (the scan result does not depend on what
follows it). -/
theorem waitToSettle_settled_iteration (ctrl : List ChainController) :
    (∀ (timeout : ℚ) (msgs : Nat → List JointState) (times : Nat → ℚ)
        (fuel t : Nat) (sv : JointState × Bool),
      sv.2 = true →
      (∀ pr ∈ sv.1.name.zip sv.1.velocity,
        jointInChains ctrl pr.1 = true → |pr.2| < settleThreshold) →
      settleLoop ctrl timeout msgs times fuel t sv = some (true, sv))
    ∧ (∀ (l₁ : List (String × ℚ)) (n : String) (v : ℚ)
        (l₂ l₂' : List (String × ℚ)),
        (∀ pr ∈ l₁, jointInChains ctrl pr.1 = true → |pr.2| < settleThreshold) →
        settleThreshold ≤ |v| → jointInChains ctrl n = true →
        scanSettled ctrl (l₁ ++ (n, v) :: l₂) = false
        ∧ scanSettled ctrl (l₁ ++ (n, v) :: l₂)
            = scanSettled ctrl (l₁ ++ (n, v) :: l₂')) := by
  constructor
  · intro timeout msgs times fuel t sv hv hslow
    exact settleLoop_of_settled ctrl timeout msgs times fuel t sv hv
      (scanSettled_of_slow ctrl _ hslow)
  · intro l₁ n v l₂ l₂' h hv hn
    refine ⟨scanSettled_first_unsettled ctrl l₁ n v l₂ h hv hn, ?_⟩
    rw [scanSettled_first_unsettled ctrl l₁ n v l₂ h hv hn,
      scanSettled_first_unsettled ctrl l₁ n v l₂' h hv hn]

/-- Witness for C3: a valid snapshot with its one chain joint at rest makes
the polling iteration return success with zero fuel, the timeout already
exceeded notwithstanding. -/
theorem waitToSettle_settled_iteration_witness :
    settleLoop [⟨"arm", ["j"], ""⟩] (1 / 10) (fun _ => []) (fun _ => 1) 0 0
        (⟨["j"], [1], [0]⟩, true)
      = some (true, (⟨["j"], [1], [0]⟩, true)) :=
  (waitToSettle_settled_iteration _).1 (1 / 10) _ _ 0 0 _ rfl (by
    intro pr hpr
    simp only [List.zip_cons_cons, List.zip_nil_right, List.mem_singleton] at hpr
    subst hpr
    intro _
    norm_num [settleThreshold])

/-- C8: with no registered chains `waitToSettle` returns success immediately
— for every store (whose validity flag it leaves untouched), every clock,
every timeout, every message stream and even zero fuel. -/
theorem waitToSettle_no_chains (timeout : ℚ) (msgs : Nat → List JointState)
    (times : Nat → ℚ) (sv : JointState × Bool) (fuel : Nat) :
    waitToSettle [] timeout msgs times sv fuel = some (true, sv) := by
  simp [waitToSettle]

/-! ### Lemmas about the dispatch loop -/

theorem chainMax_le (plans : Nat → MoveGroupResult) :
    ∀ (l : List (Nat × ChainController)) (m : ℚ), m ≤ chainMax plans l m := by
  intro l
  induction l with
  | nil => intro m; exact le_refl m
  | cons ic rest ih =>
    intro m
    simp only [chainMax]
    split
    · exact le_trans (le_max_left _ _) (ih _)
    · exact ih m

theorem chainMax_mem_le (plans : Nat → MoveGroupResult) :
    ∀ (l : List (Nat × ChainController)) (m : ℚ) (ic : Nat × ChainController),
      ic ∈ l → shouldPlan ic.2 = true →
      lastWaypointTime (plans ic.1).planned_trajectory ≤ chainMax plans l m := by
  intro l
  induction l with
  | nil => intro m ic h; exact absurd h (List.not_mem_nil ic)
  | cons ic' rest ih =>
    intro m ic hmem hplan
    rcases List.mem_cons.mp hmem with rfl | hmem'
    · simp only [chainMax, hplan, if_true]
      exact le_trans (le_max_right _ _) (chainMax_le plans rest _)
    · simp only [chainMax]
      split
      · exact ih _ ic hmem' hplan
      · exact ih m ic hmem' hplan

theorem chainMax_cases (plans : Nat → MoveGroupResult) :
    ∀ (l : List (Nat × ChainController)) (m : ℚ),
      chainMax plans l m = m
      ∨ ∃ ic ∈ l, shouldPlan ic.2 = true
          ∧ chainMax plans l m = lastWaypointTime (plans ic.1).planned_trajectory := by
  intro l
  induction l with
  | nil => intro m; exact Or.inl rfl
  | cons ic rest ih =>
    intro m
    simp only [chainMax]
    by_cases hplan : shouldPlan ic.2 = true
    · rw [if_pos hplan]
      rcases ih (max m (lastWaypointTime (plans ic.1).planned_trajectory)) with h | ⟨ic', h1, h2, h3⟩
      · rcases max_choice m (lastWaypointTime (plans ic.1).planned_trajectory) with hm | hm
        · exact Or.inl (by rw [h, hm])
        · exact Or.inr ⟨ic, by simp, hplan, by rw [h, hm]⟩
      · exact Or.inr ⟨ic', by simp [h1], h2, h3⟩
    · rw [if_neg hplan]
      rcases ih m with h | ⟨ic', h1, h2, h3⟩
      · exact Or.inl h
      · exact Or.inr ⟨ic', by simp [h1], h2, h3⟩

theorem sendLoop_append (dur : ℚ) (plans : Nat → MoveGroupResult)
    (target : JointState) :
    ∀ (l₁ l₂ : List (Nat × ChainController)) (m : ℚ) (acc : List (Nat × TrajGoal)),
      sendLoop dur plans target (l₁ ++ l₂) m acc =
        match sendLoop dur plans target l₁ m acc with
        | .exited => .exited
        | .planFailed sent => .planFailed sent
        | .ok m' acc' => sendLoop dur plans target l₂ m' acc' := by
  intro l₁
  induction l₁ with
  | nil => intro l₂ m acc; rfl
  | cons ic rest ih =>
    intro l₂ m acc
    obtain ⟨i, c⟩ := ic
    simp only [List.cons_append, sendLoop]
    cases makePoint target c.joint_names with
    | none => rfl
    | some p =>
      dsimp only
      by_cases hplan : shouldPlan c = true
      · rw [if_pos hplan, if_pos hplan]
        by_cases herr : (plans i).error_code ≠ moveItSuccess
        · rw [if_pos herr, if_pos herr]
        · rw [if_neg herr, if_neg herr, List.append_eq, ih]
      · rw [if_neg hplan, if_neg hplan, List.append_eq, ih]

theorem sendLoop_ok (dur : ℚ) (plans : Nat → MoveGroupResult)
    (target : JointState) :
    ∀ (l : List (Nat × ChainController)) (m : ℚ) (acc : List (Nat × TrajGoal)),
      (∀ ic ∈ l, makePoint target ic.2.joint_names ≠ none) →
      (∀ ic ∈ l, shouldPlan ic.2 = true → (plans ic.1).error_code = moveItSuccess) →
      ∃ newSent, sendLoop dur plans target l m acc
          = .ok (chainMax plans l m) (acc ++ newSent)
        ∧ newSent.map Prod.fst = l.map Prod.fst := by
  intro l
  induction l with
  | nil =>
    intro m acc _ _
    exact ⟨[], by simp [sendLoop, chainMax], rfl⟩
  | cons ic rest ih =>
    intro m acc hmp hok
    obtain ⟨i, c⟩ := ic
    obtain ⟨p, hp⟩ := Option.ne_none_iff_exists'.mp (hmp (i, c) (by simp))
    simp only [sendLoop, hp]
    by_cases hplan : shouldPlan c = true
    · have herr : ¬ (plans i).error_code ≠ moveItSuccess :=
        not_not.mpr (hok (i, c) (by simp) hplan)
      rw [if_pos hplan, if_neg herr]
      obtain ⟨ns, hns, hmap⟩ :=
        ih (max m (lastWaypointTime (plans i).planned_trajectory))
          (acc ++ [(i, ⟨(plans i).planned_trajectory, 1⟩)])
          (fun x hx => hmp x (by simp [hx])) (fun x hx => hok x (by simp [hx]))
      refine ⟨(i, ⟨(plans i).planned_trajectory, 1⟩) :: ns, ?_, by simp [hmap]⟩
      rw [hns]
      simp only [chainMax, hplan, if_true, List.append_assoc, List.singleton_append]
    · rw [if_neg hplan]
      obtain ⟨ns, hns, hmap⟩ :=
        ih m (acc ++ [(i, ⟨⟨c.joint_names, [{ p with time_from_start := dur }]⟩, 1⟩)])
          (fun x hx => hmp x (by simp [hx])) (fun x hx => hok x (by simp [hx]))
      refine ⟨(i, ⟨⟨c.joint_names, [{ p with time_from_start := dur }]⟩, 1⟩) :: ns,
        ?_, by simp [hmap]⟩
      rw [hns]
      simp only [chainMax, List.append_assoc, List.singleton_append]
      rw [if_neg hplan]

theorem sendLoop_plan_failure (dur : ℚ) (plans : Nat → MoveGroupResult)
    (target : JointState) (pre : List (Nat × ChainController)) (i : Nat)
    (c : ChainController) (post : List (Nat × ChainController)) (m : ℚ)
    (acc : List (Nat × TrajGoal))
    (hmp : ∀ ic ∈ pre, makePoint target ic.2.joint_names ≠ none)
    (hok : ∀ ic ∈ pre, shouldPlan ic.2 = true → (plans ic.1).error_code = moveItSuccess)
    (hmpc : makePoint target c.joint_names ≠ none)
    (hplan : shouldPlan c = true)
    (herr : (plans i).error_code ≠ moveItSuccess) :
    ∃ sent, sendLoop dur plans target (pre ++ (i, c) :: post) m acc
        = .planFailed (acc ++ sent)
      ∧ sent.map Prod.fst = pre.map Prod.fst := by
  obtain ⟨ns, hns, hmap⟩ := sendLoop_ok dur plans target pre m acc hmp hok
  rw [sendLoop_append, hns]
  obtain ⟨p, hp⟩ := Option.ne_none_iff_exists'.mp hmpc
  dsimp only
  simp only [sendLoop, hp]
  rw [if_pos hplan, if_pos herr]
  exact ⟨ns, rfl, hmap⟩

/-! ### Claims C1, C2: moveToState -/

/-- C1: `moveToState` returns true exactly when no chain requiring planning
received a non-success planning result — when every planning chain's plan
succeeds it returns true regardless of the per-chain dispatch results, and on
the first non-success plan result it returns false immediately, with exactly
the earlier-processed chains' goals sent (the failing chain's goal is not
sent and no chain result is awaited). -/
theorem moveToState_result_spec (ctrl : List ChainController) (dur : ℚ)
    (plans : Nat → MoveGroupResult) (target : JointState) :
    ((∀ ic ∈ ctrl.enum, makePoint target ic.2.joint_names ≠ none) →
     (∀ ic ∈ ctrl.enum, shouldPlan ic.2 = true →
        (plans ic.1).error_code = moveItSuccess) →
     ∀ results : Nat → Bool,
       (moveToState ctrl dur plans results target).returnValue = some true)
    ∧ (∀ (pre : List (Nat × ChainController)) (i : Nat) (c : ChainController)
        (post : List (Nat × ChainController)),
        ctrl.enum = pre ++ (i, c) :: post →
        (∀ ic ∈ pre, makePoint target ic.2.joint_names ≠ none) →
        (∀ ic ∈ pre, shouldPlan ic.2 = true →
          (plans ic.1).error_code = moveItSuccess) →
        makePoint target c.joint_names ≠ none →
        shouldPlan c = true →
        (plans i).error_code ≠ moveItSuccess →
        ∀ results : Nat → Bool, ∃ sent,
          moveToState ctrl dur plans results target = .returned false sent []
          ∧ sent.map Prod.fst = pre.map Prod.fst) := by
  constructor
  · intro hmp hok results
    obtain ⟨ns, hns, -⟩ := sendLoop_ok dur plans target ctrl.enum dur [] hmp hok
    simp only [moveToState, hns, MoveOutcome.returnValue]
  · intro pre i c post henum hmp hok hmpc hplan herr results
    obtain ⟨sent, hsent, hmap⟩ := sendLoop_plan_failure dur plans target
      pre i c post dur [] hmp hok hmpc hplan herr
    refine ⟨sent, ?_, hmap⟩
    simp only [moveToState, henum, hsent, List.nil_append]

/-- Witness for C1: two chains, the second requiring planning; the planner
fails for it, so the call returns false having sent only chain 0's goal. -/
theorem moveToState_result_spec_witness :
    ∃ sent,
      moveToState [⟨"head", ["h1"], ""⟩, ⟨"arm", ["a1"], "arm_group"⟩] 5
          (fun _ => ⟨0, ⟨[], []⟩⟩) (fun _ => true) ⟨["h1", "a1"], [1, 2], [0, 0]⟩
        = .returned false sent []
      ∧ sent.map Prod.fst = [0] :=
  (moveToState_result_spec _ 5 _ _).2 [(0, ⟨"head", ["h1"], ""⟩)] 1
    ⟨"arm", ["a1"], "arm_group"⟩ [] (by decide) (by decide) (by decide)
    (by decide) (by decide) (by decide) (fun _ => true)

/-- C2: when every planning chain's plan succeeds, the aggregate duration `M`
is the maximum of the configured duration and the planned trajectories' last
waypoint times, and every chain's result wait uses timeout `M * 1.5`. -/
theorem moveToState_max_duration (ctrl : List ChainController) (dur : ℚ)
    (plans : Nat → MoveGroupResult) (results : Nat → Bool) (target : JointState)
    (hmp : ∀ ic ∈ ctrl.enum, makePoint target ic.2.joint_names ≠ none)
    (hok : ∀ ic ∈ ctrl.enum, shouldPlan ic.2 = true →
      (plans ic.1).error_code = moveItSuccess)
    (hne : ∀ ic ∈ ctrl.enum, shouldPlan ic.2 = true →
      (plans ic.1).planned_trajectory.points ≠ []) :
    ∃ M sent,
      moveToState ctrl dur plans results target
        = .returned true sent
            (ctrl.enum.map (fun ic => (ic.1, results ic.1, M * (3 / 2))))
      ∧ dur ≤ M
      ∧ (∀ ic ∈ ctrl.enum, shouldPlan ic.2 = true →
          lastWaypointTime (plans ic.1).planned_trajectory ≤ M)
      ∧ (M = dur ∨ ∃ ic ∈ ctrl.enum, shouldPlan ic.2 = true
          ∧ M = lastWaypointTime (plans ic.1).planned_trajectory) := by
  obtain ⟨ns, hns, -⟩ := sendLoop_ok dur plans target ctrl.enum dur [] hmp hok
  refine ⟨chainMax plans ctrl.enum dur, ns, ?_, chainMax_le plans ctrl.enum dur,
    fun ic hic hp => chainMax_mem_le plans ctrl.enum dur ic hic hp,
    chainMax_cases plans ctrl.enum dur⟩
  simp only [moveToState, hns, List.nil_append]

/-- Witness for C2: a direct chain at duration 5 s plus a planned chain whose
trajectory ends at 8.2 s. -/
theorem moveToState_max_duration_witness :
    ∃ M sent,
      moveToState [⟨"head", ["h1"], ""⟩, ⟨"arm", ["a1"], "arm_group"⟩] 5
          (fun _ => ⟨1, ⟨["a1"], [⟨[2], [0], [0], 41 / 5⟩]⟩⟩) (fun _ => true)
          ⟨["h1", "a1"], [1, 2], [0, 0]⟩
        = .returned true sent
            (([⟨"head", ["h1"], ""⟩, ⟨"arm", ["a1"], "arm_group"⟩] :
                List ChainController).enum.map
              (fun ic => (ic.1, true, M * (3 / 2))))
      ∧ 5 ≤ M
      ∧ (∀ ic ∈ ([⟨"head", ["h1"], ""⟩, ⟨"arm", ["a1"], "arm_group"⟩] :
            List ChainController).enum, shouldPlan ic.2 = true →
          lastWaypointTime ((fun _ => (⟨1, ⟨["a1"], [⟨[2], [0], [0], 41 / 5⟩]⟩⟩ :
            MoveGroupResult)) ic.1).planned_trajectory ≤ M)
      ∧ (M = 5 ∨ ∃ ic ∈ ([⟨"head", ["h1"], ""⟩, ⟨"arm", ["a1"], "arm_group"⟩] :
            List ChainController).enum, shouldPlan ic.2 = true
          ∧ M = lastWaypointTime ((fun _ => (⟨1, ⟨["a1"], [⟨[2], [0], [0], 41 / 5⟩]⟩⟩ :
              MoveGroupResult)) ic.1).planned_trajectory) :=
  moveToState_max_duration _ 5 _ _ _ (by decide) (by decide) (by decide)

/-! ### Claim C10: chain getters -/

/-- C10: for a chain name matching no registered chain,
`getChainJointNames` returns the empty list and `getPlanningGroupName` the
empty string; for a registered name each returns the first matching chain's
joint list or planning group. -/
theorem chain_getters_spec :
    (∀ (ctrl : List ChainController) (n : String),
      (∀ c ∈ ctrl, c.chain_name ≠ n) →
      getChainJointNames ctrl n = [] ∧ getPlanningGroupName ctrl n = "")
    ∧ (∀ (pre : List ChainController) (c : ChainController)
        (post : List ChainController) (n : String),
        (∀ c' ∈ pre, c'.chain_name ≠ n) → c.chain_name = n →
        getChainJointNames (pre ++ c :: post) n = c.joint_names
        ∧ getPlanningGroupName (pre ++ c :: post) n = c.chain_planning_group) := by
  constructor
  · intro ctrl n h
    induction ctrl with
    | nil => exact ⟨rfl, rfl⟩
    | cons c rest ih =>
      simp only [getChainJointNames, getPlanningGroupName]
      rw [if_neg (h c (by simp)), if_neg (h c (by simp))]
      exact ih (fun c' hc' => h c' (by simp [hc']))
  · intro pre c post n hpre hc
    induction pre with
    | nil =>
      simp only [List.nil_append, getChainJointNames, getPlanningGroupName]
      rw [if_pos hc, if_pos hc]
      exact ⟨rfl, rfl⟩
    | cons c' rest ih =>
      simp only [List.cons_append, getChainJointNames, getPlanningGroupName]
      rw [if_neg (hpre c' (by simp)), if_neg (hpre c' (by simp))]
      exact ih (fun x hx => hpre x (by simp [hx]))

/-- Witness for C10: a concrete one-chain list, looked up by its own name. -/
theorem chain_getters_spec_witness :
    getChainJointNames [⟨"arm", ["j1", "j2"], "arm_group"⟩] "arm" = ["j1", "j2"]
    ∧ getPlanningGroupName [⟨"arm", ["j1", "j2"], "arm_group"⟩] "arm" = "arm_group" :=
  chain_getters_spec.2 [] ⟨"arm", ["j1", "j2"], "arm_group"⟩ [] "arm"
    (by simp) (by decide)

end RobotCalibration
